import Mathlib

/- Verification of the graph resilience engine of the telecom
infrastructure resilience simulator (src/app/page.tsx).

The JavaScript code is shallowly embedded as follows: JS records
(`Record<string, T>`) become association lists over `String` whose reads
return `Option` (with `none` playing the role of `undefined`); the
recursive DFS and the BFS/recovery `while` loops become fuel-indexed
structural recursions; an uncontrolled JS failure (a property access or
iteration on `undefined`) becomes an explicit `crash` result.  The trace
strings accumulated by `result.push(...)` in the source are pure logging
consumed only by the UI and are not modelled. -/

/-- A network node (`type Node`, page.tsx lines 27-34).  The canvas
coordinates are modelled as integers; they are only used by the recovery
planner's distance comparison. -/
structure Node where
  id : String
  label : String
  x : Int
  y : Int
  type : String
  isArticulationPoint : Bool := false
deriving DecidableEq, Repr

/-- A link (`type Edge`, page.tsx lines 36-42). -/
structure Edge where
  source : String
  target : String
  isBridge : Bool := false
  isActive : Bool
  isRecovery : Bool := false
deriving DecidableEq, Repr

/-- The graph (`type Graph`, page.tsx lines 44-47). -/
structure Graph where
  nodes : List Node
  edges : List Edge
deriving DecidableEq, Repr

/-- The ids of the graph's nodes. -/
def nodeIds (g : Graph) : List String := g.nodes.map (fun n => n.id)

/-- The data-model invariant (spec section 3): every edge endpoint names an
existing node id. -/
def wfGraph (g : Graph) : Prop :=
  ∀ e ∈ g.edges, e.source ∈ nodeIds g ∧ e.target ∈ nodeIds g

instance (g : Graph) : Decidable (wfGraph g) := by
  unfold wfGraph; infer_instance

/-- Association-list read, modelling `m[k]` on a JS record: the most
recent binding wins and `none` is `undefined`. -/
def lookupA {α : Type} : List (String × α) → String → Option α
  | [], _ => none
  | p :: m, k => if p.1 = k then some p.2 else lookupA m k

/-- The keys of an association list. -/
def keysA {α : Type} (m : List (String × α)) : List String := m.map (fun p => p.1)

theorem lookupA_mem_keys {α : Type} {m : List (String × α)} {k : String}
    (h : k ∈ keysA m) : ∃ v, lookupA m k = some v := by
  induction m with
  | nil => simp [keysA] at h
  | cons p m ih =>
    by_cases hk : p.1 = k
    · exact ⟨p.2, by simp [lookupA, hk]⟩
    · have : k ∈ keysA m := by
        simp [keysA] at h ⊢
        rcases h with h | h
        · exact absurd h.symm hk
        · exact h
      rcases ih this with ⟨v, hv⟩
      exact ⟨v, by simp [lookupA, hk, hv]⟩

theorem lookupA_not_mem_keys {α : Type} {m : List (String × α)} {k : String}
    (h : k ∉ keysA m) : lookupA m k = none := by
  induction m with
  | nil => rfl
  | cons p m ih =>
    have h1 : ¬ p.1 = k := fun he => h (by simp [keysA, he])
    have h2 : k ∉ keysA m := fun hm => h (by simp [keysA]; right; simpa [keysA] using hm)
    simp [lookupA, h1, ih h2]

theorem mem_keys_of_lookupA {α : Type} {m : List (String × α)} {k : String} {v : α}
    (h : lookupA m k = some v) : k ∈ keysA m := by
  by_contra hk
  rw [lookupA_not_mem_keys hk] at h
  cases h

/-- The unordered-pair test of `toggleEdge` (page.tsx lines 123-126), also
the bridge-edge search predicate of lines 196-198. -/
def matchesPair (e : Edge) (sourceId targetId : String) : Bool :=
  (e.source == sourceId && e.target == targetId) ||
    (e.source == targetId && e.target == sourceId)

/-- `toggleEdge` (page.tsx lines 119-135): a `map` over all edges that
flips `isActive` on those matching the unordered pair and keeps the rest. -/
def toggleEdge (g : Graph) (sourceId targetId : String) : Graph :=
  { g with
    edges := g.edges.map (fun e =>
      if matchesPair e sourceId targetId then { e with isActive := !e.isActive } else e) }

theorem map_eq_self_of_forall {α : Type} (l : List α) (f : α → α)
    (h : ∀ a ∈ l, f a = a) : l.map f = l := by
  induction l with
  | nil => rfl
  | cons x xs ih =>
    simp only [List.map_cons, h x (by simp)]
    rw [ih (fun a ha => h a (by simp [ha]))]

/-- Two nodes joined by two active parallel edges: the multigraph edge case
called out by the spec for both `toggleEdge` and the bridge analysis. -/
def twoParallelGraph : Graph :=
  { nodes := [⟨"1", "U", 0, 0, "city", false⟩, ⟨"2", "V", 1, 0, "city", false⟩],
    edges := [⟨"1", "2", false, true, false⟩, ⟨"1", "2", false, true, false⟩] }

/-- C6 counterexample: on a graph with two active parallel edges between
nodes 1 and 2, `toggleEdge` flips BOTH copies, not only the first — the
claimed behaviour would leave the flags `[false, true]`, but the code
produces `[false, false]`. -/
theorem C6_counterexample :
    (toggleEdge twoParallelGraph "1" "2").edges.map (fun e => e.isActive) = [false, false] ∧
      (toggleEdge twoParallelGraph "1" "2").edges.map (fun e => e.isActive) ≠ [false, true] := by
  constructor
  · rfl
  · decide

/-- C6 (amended): `toggleEdge` flips `isActive` on EVERY edge matching the
unordered pair (in either endpoint order) — in particular all parallel
copies — and returns the graph unchanged when no edge matches. -/
theorem C6_toggle_every_match (g : Graph) (u v : String) :
    (∀ i : Nat, (toggleEdge g u v).edges[i]? =
        (g.edges[i]?).map (fun e =>
          if matchesPair e u v then { e with isActive := !e.isActive } else e)) ∧
      ((∀ e ∈ g.edges, matchesPair e u v = false) → toggleEdge g u v = g) := by
  constructor
  · intro i
    simp [toggleEdge, List.getElem?_map]
  · intro h
    have he : g.edges.map (fun e =>
        if matchesPair e u v then { e with isActive := !e.isActive } else e) = g.edges :=
      map_eq_self_of_forall _ _ (fun e hm => by simp [h e hm])
    simp [toggleEdge, he]

/-- C6 witness: the no-match branch of the amended theorem evaluated on the
concrete two-parallel-edge graph with a pair that matches nothing. -/
theorem C6_toggle_every_match_witness :
    toggleEdge twoParallelGraph "7" "8" = twoParallelGraph :=
  (C6_toggle_every_match twoParallelGraph "7" "8").2 (by decide)

/-- `adjList[k].push(v)` (page.tsx lines 161-162, 275-276, 345-346):
appends `v` to the neighbor list stored under `k`; `none` when `k` is not a
key, where JS would fail calling `push` on `undefined`.  Duplicate keys
(excluded by the data model's unique ids) are all updated, which agrees
with the JS record on every `lookupA`. -/
def pushA (m : List (String × List String)) (k v : String) :
    Option (List (String × List String)) :=
  if k ∈ keysA m then
    some (m.map (fun p => if p.1 = k then (p.1, p.2 ++ [v]) else p))
  else none

/-- Folding the active edges into the adjacency record (page.tsx
lines 160-163): each active edge pushes its target onto its source's list
and its source onto its target's list, either push failing when its key is
missing. -/
def addEdges : List (String × List String) → List Edge → Option (List (String × List String))
  | m, [] => some m
  | m, e :: es =>
    (pushA m e.source e.target).bind (fun m1 =>
      (pushA m1 e.target e.source).bind (fun m2 => addEdges m2 es))

/-- The adjacency builder written out three times in the source (`runDFS`
lines 154-163, `runBFS` lines 268-277, `recoverNetwork` lines 338-347):
one key with an empty list per node, then the active edges folded in. -/
def buildAdj (g : Graph) : Option (List (String × List String)) :=
  addEdges (g.nodes.map (fun n => (n.id, ([] : List String))))
    (g.edges.filter (fun e => e.isActive))

theorem map_congr_on {α β : Type} (l : List α) (f g : α → β)
    (h : ∀ a ∈ l, f a = g a) : l.map f = l.map g := by
  induction l with
  | nil => rfl
  | cons x xs ih =>
    simp only [List.map_cons, h x (by simp)]
    rw [ih (fun a ha => h a (by simp [ha]))]

theorem lookupA_mapPush (m : List (String × List String)) (k v k' : String) :
    lookupA (m.map (fun p => if p.1 = k then (p.1, p.2 ++ [v]) else p)) k' =
      if k' = k then (lookupA m k').map (fun l => l ++ [v]) else lookupA m k' := by
  induction m with
  | nil => by_cases hk' : k' = k <;> simp [lookupA, hk']
  | cons p m ih =>
    by_cases hp : p.1 = k
    · by_cases hk' : k' = k
      · have : p.1 = k' := by rw [hp, hk']
        simp [lookupA, hp, hk', this]
      · have : ¬ p.1 = k' := by rw [hp]; exact fun he => hk' he.symm
        have h2 : ¬ k = k' := fun he => hk' he.symm
        simp [lookupA, hp, hk', this, h2, ih]
    · by_cases hpk' : p.1 = k'
      · have : ¬ k' = k := fun he => hp (by rw [hpk', he])
        simp [lookupA, hp, hpk', this]
      · simp [lookupA, hp, hpk', ih]

theorem keysA_pushA {m m' : List (String × List String)} {k v : String}
    (h : pushA m k v = some m') : keysA m' = keysA m := by
  unfold pushA at h
  by_cases hk : k ∈ keysA m
  · rw [if_pos hk] at h
    cases h
    simp only [keysA, List.map_map]
    apply map_congr_on
    intro p _
    by_cases hp : p.1 = k <;> simp [hp]
  · rw [if_neg hk] at h
    cases h

theorem pushA_isSome {m : List (String × List String)} {k : String} (v : String)
    (h : k ∈ keysA m) : ∃ m', pushA m k v = some m' := by
  unfold pushA
  rw [if_pos h]
  exact ⟨_, rfl⟩

theorem lookupA_pushA {m m' : List (String × List String)} {k v : String}
    (h : pushA m k v = some m') (k' : String) :
    lookupA m' k' =
      if k' = k then (lookupA m k').map (fun l => l ++ [v]) else lookupA m k' := by
  unfold pushA at h
  by_cases hk : k ∈ keysA m
  · rw [if_pos hk] at h
    cases h
    exact lookupA_mapPush m k v k'
  · rw [if_neg hk] at h
    cases h


theorem lookupA_mem {α : Type} {m : List (String × α)} {k : String} {v : α}
    (h : lookupA m k = some v) : (k, v) ∈ m := by
  induction m with
  | nil => cases h
  | cons p m ih =>
    by_cases hp : p.1 = k
    · simp only [lookupA, hp, if_pos, Option.some.injEq] at h
      subst hp
      subst h
      exact List.mem_cons_self _ _
    · simp only [lookupA, hp, if_neg] at h
      exact List.mem_cons_of_mem _ (ih h)

/-- An active edge of `edges` joins `a` and `b`, in either orientation:
the ground-truth adjacency relation that every traversal explores. -/
def activeBetween (edges : List Edge) (a b : String) : Bool :=
  edges.any (fun e => e.isActive && matchesPair e a b)

theorem activeBetween_exists {edges : List Edge} {a b : String}
    (h : activeBetween edges a b = true) :
    ∃ e ∈ edges, e.isActive = true ∧
      ((e.source = a ∧ e.target = b) ∨ (e.source = b ∧ e.target = a)) := by
  simp only [activeBetween, List.any_eq_true, Bool.and_eq_true, matchesPair,
    Bool.or_eq_true, beq_iff_eq] at h
  rcases h with ⟨e, he, ha, hm⟩
  exact ⟨e, he, ha, hm⟩

theorem activeBetween_of_edge {edges : List Edge} {e : Edge} (he : e ∈ edges)
    (ha : e.isActive = true) {a b : String}
    (hm : (e.source = a ∧ e.target = b) ∨ (e.source = b ∧ e.target = a)) :
    activeBetween edges a b = true := by
  simp only [activeBetween, List.any_eq_true, Bool.and_eq_true, matchesPair,
    Bool.or_eq_true, beq_iff_eq]
  exact ⟨e, he, ha, hm⟩

theorem activeBetween_append_left {edges rest : List Edge} {a b : String}
    (h : activeBetween edges a b = true) : activeBetween (edges ++ rest) a b = true := by
  rcases activeBetween_exists h with ⟨e, he, ha, hm⟩
  exact activeBetween_of_edge (List.mem_append_left _ he) ha hm

/-- Every neighbor list entry of the adjacency record is justified by an
active edge of `ground`. -/
def adjSound (ground : List Edge) (m : List (String × List String)) : Prop :=
  ∀ k vs, lookupA m k = some vs → ∀ x ∈ vs, activeBetween ground k x = true

theorem adjSound_pushA {ground : List Edge} {m m' : List (String × List String)}
    {k v : String} (h : adjSound ground m) (hp : pushA m k v = some m')
    (hact : activeBetween ground k v = true) : adjSound ground m' := by
  intro k' vs' hl x hx
  rw [lookupA_pushA hp k'] at hl
  by_cases hk : k' = k
  · subst hk
    rw [if_pos rfl] at hl
    rcases Option.map_eq_some'.mp hl with ⟨vs, hvs, heq⟩
    subst heq
    rcases List.mem_append.mp hx with hx | hx
    · exact h _ _ hvs x hx
    · rcases List.mem_singleton.mp hx with rfl
      exact hact
  · rw [if_neg hk] at hl
    exact h _ _ hl x hx

theorem addEdges_keys : ∀ (es : List Edge) (m m' : List (String × List String)),
    addEdges m es = some m' → keysA m' = keysA m := by
  intro es
  induction es with
  | nil =>
    intro m m' h
    cases h
    rfl
  | cons e es ih =>
    intro m m' h
    unfold addEdges at h
    cases h1 : pushA m e.source e.target with
    | none => rw [h1] at h; cases h
    | some m1 =>
      rw [h1, Option.some_bind] at h
      cases h2 : pushA m1 e.target e.source with
      | none => rw [h2] at h; cases h
      | some m2 =>
        rw [h2, Option.some_bind] at h
        rw [ih m2 m' h, keysA_pushA h2, keysA_pushA h1]

theorem addEdges_isSome : ∀ (es : List Edge) (m : List (String × List String)),
    (∀ e ∈ es, e.source ∈ keysA m ∧ e.target ∈ keysA m) →
    ∃ m', addEdges m es = some m' := by
  intro es
  induction es with
  | nil => exact fun m _ => ⟨m, rfl⟩
  | cons e es ih =>
    intro m h
    rcases pushA_isSome e.target (h e (by simp)).1 with ⟨m1, h1⟩
    have hk1 : keysA m1 = keysA m := keysA_pushA h1
    rcases pushA_isSome e.source (hk1 ▸ (h e (by simp)).2) with ⟨m2, h2⟩
    have hk2 : keysA m2 = keysA m := by rw [keysA_pushA h2, hk1]
    rcases ih m2 (fun e' he' => hk2 ▸ h e' (by simp [he'])) with ⟨m', hm'⟩
    refine ⟨m', ?_⟩
    unfold addEdges
    rw [h1, Option.some_bind, h2, Option.some_bind, hm']

theorem addEdges_sound {ground : List Edge} :
    ∀ (es : List Edge) (m m' : List (String × List String)),
    (∀ e ∈ es, e ∈ ground ∧ e.isActive = true) →
    adjSound ground m → addEdges m es = some m' → adjSound ground m' := by
  intro es
  induction es with
  | nil =>
    intro m m' _ hs h
    cases h
    exact hs
  | cons e es ih =>
    intro m m' hg hs h
    unfold addEdges at h
    cases h1 : pushA m e.source e.target with
    | none => rw [h1] at h; cases h
    | some m1 =>
      rw [h1, Option.some_bind] at h
      cases h2 : pushA m1 e.target e.source with
      | none => rw [h2] at h; cases h
      | some m2 =>
        rw [h2, Option.some_bind] at h
        have hab : activeBetween ground e.source e.target = true :=
          activeBetween_of_edge (hg e (by simp)).1 (hg e (by simp)).2 (Or.inl ⟨rfl, rfl⟩)
        have hba : activeBetween ground e.target e.source = true :=
          activeBetween_of_edge (hg e (by simp)).1 (hg e (by simp)).2 (Or.inr ⟨rfl, rfl⟩)
        have hs1 : adjSound ground m1 := adjSound_pushA hs h1 hab
        have hs2 : adjSound ground m2 := adjSound_pushA hs1 h2 hba
        exact ih m2 m' (fun e' he' => hg e' (by simp [he'])) hs2 h

theorem keysA_init (g : Graph) :
    keysA (g.nodes.map (fun n => (n.id, ([] : List String)))) = nodeIds g := by
  simp only [keysA, nodeIds, List.map_map]
  rfl

theorem buildAdj_keys {g : Graph} {adj : List (String × List String)}
    (h : buildAdj g = some adj) : keysA adj = nodeIds g := by
  unfold buildAdj at h
  rw [addEdges_keys _ _ _ h, keysA_init]

theorem buildAdj_isSome {g : Graph} (hwf : wfGraph g) :
    ∃ adj, buildAdj g = some adj := by
  apply addEdges_isSome
  intro e he
  rw [keysA_init]
  exact hwf e (List.mem_of_mem_filter he)

theorem buildAdj_sound {g : Graph} {adj : List (String × List String)}
    (h : buildAdj g = some adj) : adjSound g.edges adj := by
  unfold buildAdj at h
  apply addEdges_sound _ _ _ _ _ h
  · intro e he
    exact ⟨List.mem_of_mem_filter he, List.of_mem_filter he⟩
  · intro k vs hl x hx
    have hmem := lookupA_mem hl
    rcases List.mem_map.mp hmem with ⟨n, _, hn⟩
    have hvs : vs = [] := (Prod.mk.injEq _ _ _ _ ▸ hn).2.symm
    subst hvs
    cases hx

/-- The adjacency record is closed: every neighbor is itself a key.  Holds
for the adjacency of a well-formed graph and guards every
`adjList[current]` read in the traversals. -/
def keyClosed (m : List (String × List String)) : Prop :=
  ∀ k vs, lookupA m k = some vs → ∀ x ∈ vs, x ∈ keysA m

theorem buildAdj_keyClosed {g : Graph} {adj : List (String × List String)}
    (hwf : wfGraph g) (h : buildAdj g = some adj) : keyClosed adj := by
  intro k vs hl x hx
  rcases activeBetween_exists (buildAdj_sound h k vs hl x hx) with ⟨e, he, _, hm⟩
  rw [buildAdj_keys h]
  rcases hm with ⟨_, ht⟩ | ⟨hs, _⟩
  · exact ht ▸ (hwf e he).2
  · exact hs ▸ (hwf e he).1

/-- The record-typed locals of `runDFS` (page.tsx lines 143-149) threaded
through the recursive `dfsVisit`.  `visited` lists the nodes in first-visit
order; `aps` is the insertion-ordered articulation-point `Set`. -/
structure DfsState where
  visited : List String
  disc : List (String × Nat)
  low : List (String × Nat)
  parent : List (String × String)
  bridges : List Edge
  aps : List String
  time : Nat
deriving DecidableEq, Repr

/-- Read of `discoveryTime[u]` or `lowTime[u]`.  In the source these reads
only occur after the key was assigned (both maps are written at a node's
first visit, before any read of that node), so the `undefined` case cannot
arise and the default 0 is never exercised. -/
def timeGet (m : List (String × Nat)) (k : String) : Nat := (lookupA m k).getD 0

/-- `foundArticulationPoints.add(u)` (page.tsx lines 148, 190, 212): a JS
`Set` keeps insertion order and ignores duplicates. -/
def addAp (aps : List String) (u : String) : List String :=
  if u ∈ aps then aps else aps ++ [u]

/-- The bridge-edge search of page.tsx lines 196-198. -/
def findBridgeEdge (activeEdges : List Edge) (u v : String) : Option Edge :=
  activeEdges.find? (fun e => matchesPair e u v)

mutual
/-- `dfsVisit` (page.tsx lines 166-216), fuel-indexed: stamps the node's
discovery and low times, runs the neighbor loop, then applies the root
articulation rule (lines 210-213).  `none` is exhausted fuel; `runDFS`
passes fuel exceeding the length of any call chain. -/
def dfsVisit (adj : List (String × List String)) (activeEdges : List Edge) :
    Nat → String → Bool → DfsState → Option DfsState
  | 0, _, _, _ => none
  | fuel + 1, u, isRoot, st0 =>
    let t := st0.time + 1
    let st1 : DfsState :=
      { st0 with
        visited := st0.visited ++ [u]
        time := t
        disc := (u, t) :: st0.disc
        low := (u, t) :: st0.low }
    match dfsGo adj activeEdges fuel u isRoot ((lookupA adj u).getD []) 0 st1 with
    | none => none
    | some (st2, childCount) =>
      if isRoot = true ∧ 1 < childCount then some { st2 with aps := addAp st2.aps u }
      else some st2

/-- The `for (const v of adjList[u])` loop of `dfsVisit` (page.tsx
lines 176-207), also threading `childCount`.  An already-visited neighbor
is skipped whenever it equals `parent[u]` (line 203; `v !== parent[u]` is
false exactly when the lookup yields `some v`) and otherwise updates
`low[u]` as a back edge; an unvisited neighbor is recursed into and then
the articulation (lines 188-191) and bridge (lines 194-202) rules fire. -/
def dfsGo (adj : List (String × List String)) (activeEdges : List Edge) :
    Nat → String → Bool → List String → Nat → DfsState → Option (DfsState × Nat)
  | 0, _, _, _, _, _ => none
  | _ + 1, _, _, [], childCount, st => some (st, childCount)
  | fuel + 1, u, isRoot, v :: vs, childCount, st =>
    if v ∈ st.visited then
      if lookupA st.parent u = some v then
        dfsGo adj activeEdges fuel u isRoot vs childCount st
      else
        dfsGo adj activeEdges fuel u isRoot vs childCount
          { st with low := (u, min (timeGet st.low u) (timeGet st.disc v)) :: st.low }
    else
      match dfsVisit adj activeEdges fuel v false { st with parent := (v, u) :: st.parent } with
      | none => none
      | some st1 =>
        let st2 : DfsState :=
          { st1 with low := (u, min (timeGet st1.low u) (timeGet st1.low v)) :: st1.low }
        let st3 : DfsState :=
          if ¬ isRoot = true ∧ timeGet st2.disc u ≤ timeGet st2.low v then
            { st2 with aps := addAp st2.aps u }
          else st2
        let st4 : DfsState :=
          if timeGet st3.disc u < timeGet st3.low v then
            match findBridgeEdge activeEdges u v with
            | some e => { st3 with bridges := st3.bridges ++ [e] }
            | none => st3
          else st3
        dfsGo adj activeEdges fuel u isRoot vs (childCount + 1) st4
end

/-- Fuel for `runDFS`: an over-approximation of the longest possible
`dfsVisit`/`dfsGo` call chain, derived only from the node and edge counts
so that it is unchanged by the annotation pass of lines 226-244. -/
def dfsFuel (g : Graph) : Nat := 2 * g.nodes.length + 2 * g.edges.length + 2

/-- The outputs of one `runDFS` call: `foundBridges`, the articulation-point
set, the annotated graph written back by lines 241-244, and the
`articulationPoints` list of line 247. -/
structure DfsOut where
  bridges : List Edge
  aps : List String
  graph' : Graph
  articulationNodes : List Node
deriving DecidableEq, Repr

/-- `runDFS` (page.tsx lines 138-248) without the React state writes: the
adjacency build, the single `dfsVisit` from `graph.nodes[0]`, and the
annotation of edges and nodes with the found bridges and articulation
points.  `none` models the failure on an empty node list (line 219) or an
active edge endpoint missing from the node list (lines 160-163), and
covers exhausted fuel, which `dfsFuel` makes unreachable. -/
def runDFS (g : Graph) : Option DfsOut :=
  match buildAdj g with
  | none => none
  | some adj =>
    match g.nodes.head? with
    | none => none
    | some start =>
      match dfsVisit adj (g.edges.filter (fun e => e.isActive)) (dfsFuel g)
          start.id true ⟨[], [], [], [], [], [], 0⟩ with
      | none => none
      | some st =>
        let updatedEdges := g.edges.map (fun e =>
          { e with isBridge := st.bridges.any (fun b =>
              (b.source == e.source && b.target == e.target) ||
                (b.source == e.target && b.target == e.source)) })
        let updatedNodes := g.nodes.map (fun n =>
          { n with isArticulationPoint := st.aps.contains n.id })
        some ⟨st.bridges, st.aps, ⟨updatedNodes, updatedEdges⟩,
          updatedNodes.filter (fun n => n.isArticulationPoint)⟩

/-- The path graph A–B–C of spec section 8, ids 1, 2, 3. -/
def pathGraph3 : Graph :=
  { nodes := [⟨"1", "A", 0, 0, "city", false⟩, ⟨"2", "B", 1, 0, "city", false⟩,
      ⟨"3", "C", 2, 0, "city", false⟩],
    edges := [⟨"1", "2", false, true, false⟩, ⟨"2", "3", false, true, false⟩] }

/-- C2: on the path graph A–B–C with both edges active, the analysis
reports exactly the two edges as bridges (deepest first) and exactly B as
articulation point — A and C are not articulation points. -/
theorem C2_path_graph :
    (runDFS pathGraph3).map
        (fun r => (r.bridges.map (fun e => (e.source, e.target)), r.aps)) =
      some ([("2", "3"), ("1", "2")], ["2"]) := by
  decide

/-- C1 counterexample: on two nodes joined by two active parallel edges,
the analysis DOES report the tree edge 1–2 as a bridge — the claim says the
second parallel occurrence of the parent is treated as a back edge and the
edge is therefore not reported. -/
theorem C1_counterexample :
    (runDFS twoParallelGraph).map (fun r => r.bridges.map (fun e => (e.source, e.target))) =
      some [("1", "2")] := by
  decide

/-- C1 (amended): the parent skip of line 203 compares node ids, so EVERY
adjacency occurrence of the recorded parent is skipped — the loop step on
such an occurrence changes nothing, performing no low update — and
consequently on the two-node graph with two active parallel edges the tree
edge is still reported as a bridge. -/
theorem C1_parent_skip (adj : List (String × List String)) (act : List Edge)
    (fuel : Nat) (u v : String) (isRoot : Bool) (vs : List String) (c : Nat)
    (st : DfsState) (hv : v ∈ st.visited) (hp : lookupA st.parent u = some v) :
    dfsGo adj act (fuel + 1) u isRoot (v :: vs) c st = dfsGo adj act fuel u isRoot vs c st ∧
      (runDFS twoParallelGraph).map (fun r => r.bridges.map (fun e => (e.source, e.target))) ≠
        some [] := by
  constructor
  · simp [dfsGo, hv, hp]
  · decide

/-- A reachable `dfsVisit` state for node 2 with parent 1, both visited. -/
def parentSkipState : DfsState :=
  ⟨["1", "2"], [("2", 2), ("1", 1)], [("2", 2), ("1", 1)], [("2", "1")], [], [], 2⟩

/-- C1 witness: the amended theorem applied at the concrete state in which
node 2 is being expanded with parent 1 and meets a second adjacency
occurrence of 1. -/
theorem C1_parent_skip_witness :
    dfsGo [] [] 1 "2" false ["1"] 0 parentSkipState =
        dfsGo [] [] 0 "2" false [] 0 parentSkipState ∧
      (runDFS twoParallelGraph).map (fun r => r.bridges.map (fun e => (e.source, e.target))) ≠
        some [] :=
  C1_parent_skip [] [] 0 "2" "1" false [] 0 parentSkipState (by decide) (by decide)

/-- Lifting an edge-annotation map into a DFS state: only the found-bridge
records change, everything else is untouched. -/
def liftSt (f : Edge → Edge) (st : DfsState) : DfsState :=
  { st with bridges := st.bridges.map f }

theorem liftSt_mk (f : Edge → Edge) (vis : List String) (d l : List (String × Nat))
    (p : List (String × String)) (b : List Edge) (a : List String) (t : Nat) :
    liftSt f ⟨vis, d, l, p, b, a, t⟩ = ⟨vis, d, l, p, b.map f, a, t⟩ := rfl

theorem findBridgeEdge_map (act : List Edge) (f : Edge → Edge)
    (hs : ∀ e, (f e).source = e.source) (ht : ∀ e, (f e).target = e.target)
    (u v : String) :
    findBridgeEdge (act.map f) u v = (findBridgeEdge act u v).map f := by
  have hp : ((fun e => matchesPair e u v) ∘ f) = (fun e => matchesPair e u v) := by
    funext e
    simp [Function.comp, matchesPair, hs, ht]
  unfold findBridgeEdge
  rw [List.find?_map, hp]

/-- The DFS computation only reads the endpoints and activity of the edge
records it carries: applying an annotation map `f` that preserves `source`
and `target` to the active-edge list maps the found bridges by `f` and
changes nothing else. -/
theorem dfs_map (adj : List (String × List String)) (act : List Edge) (f : Edge → Edge)
    (hs : ∀ e, (f e).source = e.source) (ht : ∀ e, (f e).target = e.target) :
    ∀ fuel : Nat,
      (∀ (u : String) (isRoot : Bool) (st : DfsState),
        dfsVisit adj (act.map f) fuel u isRoot (liftSt f st) =
          (dfsVisit adj act fuel u isRoot st).map (liftSt f)) ∧
      (∀ (u : String) (isRoot : Bool) (vs : List String) (c : Nat) (st : DfsState),
        dfsGo adj (act.map f) fuel u isRoot vs c (liftSt f st) =
          (dfsGo adj act fuel u isRoot vs c st).map (fun q => (liftSt f q.1, q.2))) := by
  intro fuel
  induction fuel with
  | zero => exact ⟨fun _ _ _ => rfl, fun _ _ _ _ _ => rfl⟩
  | succ fuel ih =>
    constructor
    · intro u isRoot st
      obtain ⟨vis, d, l, p, b, a, t⟩ := st
      rw [liftSt_mk]
      simp only [dfsVisit]
      have key := ih.2 u isRoot ((lookupA adj u).getD []) 0
        ⟨vis ++ [u], (u, t + 1) :: d, (u, t + 1) :: l, p, b, a, t + 1⟩
      rw [liftSt_mk] at key
      rw [key]
      cases dfsGo adj act fuel u isRoot ((lookupA adj u).getD []) 0
          ⟨vis ++ [u], (u, t + 1) :: d, (u, t + 1) :: l, p, b, a, t + 1⟩ with
      | none => rfl
      | some q =>
        obtain ⟨st2, c⟩ := q
        by_cases hroot : isRoot = true ∧ 1 < c <;>
          simp [hroot, liftSt, addAp]
    · intro u isRoot vs c st
      cases vs with
      | nil =>
        obtain ⟨vis, d, l, p, b, a, t⟩ := st
        rfl
      | cons w ws =>
        obtain ⟨vis, d, l, p, b, a, t⟩ := st
        rw [liftSt_mk]
        simp only [dfsGo]
        by_cases hw : w ∈ vis
        · rw [if_pos hw, if_pos hw]
          by_cases hpar : lookupA p u = some w
          · rw [if_pos hpar, if_pos hpar]
            have key := ih.2 u isRoot ws c ⟨vis, d, l, p, b, a, t⟩
            rw [liftSt_mk] at key
            exact key
          · rw [if_neg hpar, if_neg hpar]
            have key := ih.2 u isRoot ws c
              ⟨vis, d, (u, min (timeGet l u) (timeGet d w)) :: l, p, b, a, t⟩
            rw [liftSt_mk] at key
            exact key
        · rw [if_neg hw, if_neg hw]
          have keyv := ih.1 w false ⟨vis, d, l, (w, u) :: p, b, a, t⟩
          rw [liftSt_mk] at keyv
          rw [keyv]
          cases hv : dfsVisit adj act fuel w false ⟨vis, d, l, (w, u) :: p, b, a, t⟩ with
          | none => rfl
          | some st1 =>
            obtain ⟨vis1, d1, l1, p1, b1, a1, t1⟩ := st1
            rw [Option.map_some']
            rw [liftSt_mk]
            dsimp only
            by_cases hap : ¬ isRoot = true ∧
                timeGet d1 u ≤ timeGet ((u, min (timeGet l1 u) (timeGet l1 w)) :: l1) w
            · simp only [if_pos hap]
              by_cases hbr : timeGet d1 u <
                  timeGet ((u, min (timeGet l1 u) (timeGet l1 w)) :: l1) w
              · simp only [if_pos hbr]
                rw [findBridgeEdge_map act f hs ht]
                cases hfind : findBridgeEdge act u w with
                | none =>
                  simp only [hfind, Option.map_none']
                  have key := ih.2 u isRoot ws (c + 1)
                    ⟨vis1, d1, (u, min (timeGet l1 u) (timeGet l1 w)) :: l1, p1, b1,
                      addAp a1 u, t1⟩
                  rw [liftSt_mk] at key
                  exact key
                | some e =>
                  simp only [hfind, Option.map_some']
                  have key := ih.2 u isRoot ws (c + 1)
                    ⟨vis1, d1, (u, min (timeGet l1 u) (timeGet l1 w)) :: l1, p1, b1 ++ [e],
                      addAp a1 u, t1⟩
                  rw [liftSt_mk, List.map_append] at key
                  exact key
              · simp only [if_neg hbr]
                have key := ih.2 u isRoot ws (c + 1)
                  ⟨vis1, d1, (u, min (timeGet l1 u) (timeGet l1 w)) :: l1, p1, b1,
                    addAp a1 u, t1⟩
                rw [liftSt_mk] at key
                exact key
            · simp only [if_neg hap]
              by_cases hbr : timeGet d1 u <
                  timeGet ((u, min (timeGet l1 u) (timeGet l1 w)) :: l1) w
              · simp only [if_pos hbr]
                rw [findBridgeEdge_map act f hs ht]
                cases hfind : findBridgeEdge act u w with
                | none =>
                  simp only [hfind, Option.map_none']
                  have key := ih.2 u isRoot ws (c + 1)
                    ⟨vis1, d1, (u, min (timeGet l1 u) (timeGet l1 w)) :: l1, p1, b1, a1, t1⟩
                  rw [liftSt_mk] at key
                  exact key
                | some e =>
                  simp only [hfind, Option.map_some']
                  have key := ih.2 u isRoot ws (c + 1)
                    ⟨vis1, d1, (u, min (timeGet l1 u) (timeGet l1 w)) :: l1, p1, b1 ++ [e],
                      a1, t1⟩
                  rw [liftSt_mk, List.map_append] at key
                  exact key
              · simp only [if_neg hbr]
                have key := ih.2 u isRoot ws (c + 1)
                  ⟨vis1, d1, (u, min (timeGet l1 u) (timeGet l1 w)) :: l1, p1, b1, a1, t1⟩
                rw [liftSt_mk] at key
                exact key

theorem filter_congr_on {α : Type} (l : List α) (p q : α → Bool)
    (h : ∀ a ∈ l, p a = q a) : l.filter p = l.filter q := by
  induction l with
  | nil => rfl
  | cons x xs ih =>
    simp only [List.filter_cons, h x (by simp)]
    rw [ih (fun a ha => h a (by simp [ha]))]

theorem addEdges_map_eq (f : Edge → Edge)
    (hs : ∀ e, (f e).source = e.source) (ht : ∀ e, (f e).target = e.target) :
    ∀ (es : List Edge) (m : List (String × List String)),
    addEdges m (es.map f) = addEdges m es := by
  intro es
  induction es with
  | nil => intro m; rfl
  | cons e es ih =>
    intro m
    simp only [List.map_cons]
    unfold addEdges
    rw [hs e, ht e]
    simp only [ih]

/-- Re-running the analysis on an annotated copy of the graph: annotating
edges by any endpoint- and activity-preserving `f` and nodes by any
id-preserving `nf` leaves the computed articulation points unchanged and
maps the found bridge records by `f`. -/
theorem runDFS_annotate (g : Graph) (f : Edge → Edge) (nf : Node → Node)
    (hfs : ∀ e, (f e).source = e.source) (hft : ∀ e, (f e).target = e.target)
    (hfa : ∀ e, (f e).isActive = e.isActive) (hni : ∀ n, (nf n).id = n.id)
    (adj : List (String × List String)) (start : Node) (st : DfsState)
    (hb : buildAdj g = some adj) (hh : g.nodes.head? = some start)
    (hv : dfsVisit adj (g.edges.filter (fun e => e.isActive)) (dfsFuel g)
      start.id true ⟨[], [], [], [], [], [], 0⟩ = some st) :
    ∃ GG AA, runDFS ⟨g.nodes.map nf, g.edges.map f⟩ =
      some ⟨st.bridges.map f, st.aps, GG, AA⟩ := by
  have hedges : (g.edges.map f).filter (fun e => e.isActive) =
      (g.edges.filter (fun e => e.isActive)).map f := by
    rw [List.filter_map]
    have hcongr : ∀ a ∈ g.edges, ((fun e => e.isActive) ∘ f) a = (fun e => e.isActive) a := by
      intro a _
      simp only [Function.comp_apply]
      exact hfa a
    rw [filter_congr_on g.edges _ _ hcongr]
  have hinit : (g.nodes.map nf).map (fun n => (n.id, ([] : List String))) =
      g.nodes.map (fun n => (n.id, ([] : List String))) := by
    rw [List.map_map]
    exact map_congr_on _ _ _ (fun n _ => by simp only [Function.comp_apply, hni n])
  have hadj2 : buildAdj ⟨g.nodes.map nf, g.edges.map f⟩ = some adj := by
    unfold buildAdj
    dsimp only
    rw [hinit, hedges, addEdges_map_eq f hfs hft]
    unfold buildAdj at hb
    exact hb
  have hh2 : (g.nodes.map nf).head? = some (nf start) := by
    cases hns : g.nodes with
    | nil => rw [hns] at hh; cases hh
    | cons n ns =>
      rw [hns] at hh
      injection hh with hh
      subst hh
      rfl
  have hfuel2 : dfsFuel ⟨g.nodes.map nf, g.edges.map f⟩ = dfsFuel g := by
    simp [dfsFuel]
  have hkey := (dfs_map adj (g.edges.filter (fun e => e.isActive)) f hfs hft
    (dfsFuel g)).1 start.id true ⟨[], [], [], [], [], [], 0⟩
  rw [liftSt_mk] at hkey
  simp only [List.map_nil] at hkey
  rw [hv, Option.map_some'] at hkey
  unfold runDFS
  rw [hadj2]
  dsimp only
  rw [hh2]
  dsimp only
  rw [hfuel2, hedges, hni start, hkey]
  dsimp only [liftSt]
  exact ⟨_, _, rfl⟩

/-- C9: the critical-structure analysis is idempotent — running it again on
the annotated graph written back by a first run yields the same bridge set
(as endpoint pairs) and the same articulation-point set. -/
theorem C9_idempotent (g : Graph) (r : DfsOut) (h : runDFS g = some r) :
    ∃ r2, runDFS r.graph' = some r2 ∧
      r2.bridges.map (fun e => (e.source, e.target)) =
        r.bridges.map (fun e => (e.source, e.target)) ∧
      r2.aps = r.aps := by
  unfold runDFS at h
  cases hb : buildAdj g with
  | none => rw [hb] at h; cases h
  | some adj =>
    rw [hb] at h
    dsimp only at h
    cases hh : g.nodes.head? with
    | none => rw [hh] at h; cases h
    | some start =>
      rw [hh] at h
      dsimp only at h
      cases hv : dfsVisit adj (g.edges.filter (fun e => e.isActive)) (dfsFuel g)
          start.id true ⟨[], [], [], [], [], [], 0⟩ with
      | none => rw [hv] at h; cases h
      | some st =>
        rw [hv] at h
        dsimp only at h
        injection h with h
        subst h
        dsimp only
        obtain ⟨GG, AA, hrun⟩ := runDFS_annotate g
          (fun e => { e with isBridge := st.bridges.any (fun b =>
            (b.source == e.source && b.target == e.target) ||
              (b.source == e.target && b.target == e.source)) })
          (fun n => { n with isArticulationPoint := st.aps.contains n.id })
          (fun e => rfl) (fun e => rfl) (fun e => rfl) (fun n => rfl)
          adj start st hb hh hv
        refine ⟨_, hrun, ?_, rfl⟩
        rw [List.map_map]
        exact map_congr_on _ _ _ (fun e _ => rfl)

/-- C9 witness: the idempotence theorem applied to the concrete path graph. -/
theorem C9_idempotent_witness :
    ∃ r, runDFS pathGraph3 = some r ∧ ∃ r2, runDFS r.graph' = some r2 ∧
      r2.bridges.map (fun e => (e.source, e.target)) =
        r.bridges.map (fun e => (e.source, e.target)) ∧
      r2.aps = r.aps := by
  obtain ⟨r, hr⟩ : ∃ r, runDFS pathGraph3 = some r := ⟨_, rfl⟩
  exact ⟨r, hr, C9_idempotent pathGraph3 r hr⟩

/-- Result of a modelled JS computation: `ok`, an uncontrolled failure
(`crash`, a property access or iteration on `undefined`), or exhausted
fuel (`fuelOut`, which the chosen fuels make unreachable on the happy
paths). -/
inductive Res (α : Type) where
  | ok : α → Res α
  | crash : Res α
  | fuelOut : Res α
deriving DecidableEq, Repr

/-- Outcome of `runBFS`: a reconstructed shortest path, the no-route
message of line 319, or the missing-selection message of line 253. -/
inductive BfsOutcome where
  | found : List String → BfsOutcome
  | notFound : BfsOutcome
  | noSelection : BfsOutcome
deriving DecidableEq, Repr

/-- The locals of `runBFS` (page.tsx lines 260-262).  `visited` is kept in
discovery order; every node pushed onto `queue` is recorded in `visited`
at the same moment (lines 298-299), so `visited` is also the enqueue log. -/
structure BfsState where
  visited : List String
  queue : List String
  prev : List (String × Option String)
deriving DecidableEq, Repr

/-- The `for (const neighbor of adjList[current])` body of `runBFS`
(page.tsx lines 296-303): each unvisited neighbor is enqueued, marked
visited and given `current` as predecessor. -/
def bfsPush (current : String) (st : BfsState) (vs : List String) : BfsState :=
  vs.foldl (fun s v =>
    if v ∈ s.visited then s
    else ⟨s.visited ++ [v], s.queue ++ [v], (v, some current) :: s.prev⟩) st

/-- The BFS `while` loop (page.tsx lines 287-304): dequeue, stop when the
target is dequeued, otherwise push the unvisited neighbors.  `crash` is
the `undefined` iteration when `current` has no adjacency entry. -/
def bfsLoop (adj : List (String × List String)) (target : String) :
    Nat → BfsState → Res BfsState
  | 0, _ => .fuelOut
  | fuel + 1, st =>
    match st.queue with
    | [] => .ok st
    | current :: rest =>
      if current = target then .ok st
      else
        match lookupA adj current with
        | none => .crash
        | some vs => bfsLoop adj target fuel (bfsPush current { st with queue := rest } vs)

/-- Path reconstruction (page.tsx lines 308-314), building the list
source-first by walking predecessors from the target.  `none` stands for
the never-terminating walk that an `undefined` predecessor entry would
cause; with the fuel used in `runBFS` it is unreachable once the target is
visited. -/
def walkPrev (prev : List (String × Option String)) : Nat → String → Option (List String)
  | 0, _ => none
  | fuel + 1, c =>
    match lookupA prev c with
    | none => none
    | some none => some [c]
    | some (some p) => (walkPrev prev fuel p).map (fun l => l ++ [c])

/-- Fuel for the BFS loop: each iteration dequeues one node, and at most
`g.nodes.length` nodes are ever enqueued. -/
def bfsFuel (g : Graph) : Nat := g.nodes.length + 1

/-- `runBFS` after its null-selection guard (page.tsx lines 257-324): the
adjacency build, the loop from the selected node, and the predecessor walk
when the target was visited. -/
def runBFS (g : Graph) (selectedNode targetNode : String) : Res BfsOutcome :=
  match buildAdj g with
  | none => .crash
  | some adj =>
    match bfsLoop adj targetNode (bfsFuel g)
        ⟨[selectedNode], [selectedNode], [(selectedNode, none)]⟩ with
    | .crash => .crash
    | .fuelOut => .fuelOut
    | .ok st =>
      if targetNode ∈ st.visited then
        match walkPrev st.prev st.visited.length targetNode with
        | none => .crash
        | some path => .ok (.found path)
      else .ok .notFound

/-- `runBFS` including the guard of page.tsx lines 252-255:
`!selectedNode || !targetNode` is true in JS for `null` and for the empty
string, both falsy. -/
def runBFSGuarded (g : Graph) (s t : String) : Res BfsOutcome :=
  if s = "" ∨ t = "" then .ok .noSelection else runBFS g s t

/-- C8: querying the shortest path from a node to itself returns the
single-node path: the node is dequeued first, it is the target, and the
predecessor walk stops at its `null` entry. -/
theorem C8_self_path (g : Graph) (x : String) (hwf : wfGraph g)
    (hx : x ∈ nodeIds g) : runBFS g x x = .ok (.found [x]) := by
  obtain ⟨adj, hadj⟩ := buildAdj_isSome hwf
  unfold runBFS
  rw [hadj]
  dsimp only
  unfold bfsFuel
  simp only [bfsLoop, if_true]
  rw [if_pos (by simp : x ∈ [x])]
  simp [walkPrev, lookupA]

/-- One-node graph used for the invalid-id counterexample. -/
def oneNodeGraph : Graph := { nodes := [⟨"1", "A", 0, 0, "city", false⟩], edges := [] }

/-- C5 counterexample: querying with the id 9, which is absent from the
one-node graph, does not fail with a typed `InvalidNode` error — with
source equal to target it silently returns the path `["9"]`. -/
theorem C5_counterexample :
    runBFSGuarded oneNodeGraph "9" "9" = .ok (.found ["9"]) := by
  decide

/-- C5 (amended): the shortest-path entry point validates nothing about the
ids.  On a well-formed graph, an absent source id equal to the target
yields a fabricated single-node path, and an absent source id different
from the target crashes on the `undefined` adjacency lookup; no typed
error exists. -/
theorem C5_no_validation (g : Graph) (s t : String) (hwf : wfGraph g)
    (hs : s ∉ nodeIds g) (hs0 : s ≠ "") (ht0 : t ≠ "") :
    (s = t → runBFSGuarded g s t = .ok (.found [s])) ∧
      (s ≠ t → runBFSGuarded g s t = .crash) := by
  obtain ⟨adj, hadj⟩ := buildAdj_isSome hwf
  have hguard : ¬ (s = "" ∨ t = "") := by
    intro hor
    rcases hor with hor | hor
    · exact hs0 hor
    · exact ht0 hor
  have hlook : lookupA adj s = none := by
    apply lookupA_not_mem_keys
    rw [buildAdj_keys hadj]
    exact hs
  constructor
  · intro hst
    subst hst
    unfold runBFSGuarded
    rw [if_neg hguard]
    unfold runBFS
    rw [hadj]
    dsimp only
    unfold bfsFuel
    simp only [bfsLoop, if_true]
    rw [if_pos (by simp : s ∈ [s])]
    simp [walkPrev, lookupA]
  · intro hst
    unfold runBFSGuarded
    rw [if_neg hguard]
    unfold runBFS
    rw [hadj]
    dsimp only
    unfold bfsFuel
    simp only [bfsLoop]
    rw [if_neg hst, hlook]

/-- C5 witness: the amended theorem applied to the one-node graph and the
absent ids 9 (as source and target) and 8. -/
theorem C5_no_validation_witness :
    (("9" : String) = "9" → runBFSGuarded oneNodeGraph "9" "9" = .ok (.found ["9"])) ∧
      (("9" : String) ≠ "9" → runBFSGuarded oneNodeGraph "9" "9" = .crash) :=
  C5_no_validation oneNodeGraph "9" "9" (by decide) (by decide) (by decide) (by decide)

/-- C8 witness: the self-path theorem applied to node 2 of the path graph. -/
theorem C8_self_path_witness : runBFS pathGraph3 "2" "2" = .ok (.found ["2"]) :=
  C8_self_path pathGraph3 "2" (by decide) (by decide)

/-- Position of the first occurrence of `v` in `l` — the discovery rank of
a visited node in the `visited` log. -/
def rankIn : List String → String → Nat
  | [], _ => 0
  | x :: xs, v => if x = v then 0 else rankIn xs v + 1

theorem rankIn_lt_length {l : List String} {v : String} (h : v ∈ l) :
    rankIn l v < l.length := by
  induction l with
  | nil => cases h
  | cons x xs ih =>
    by_cases hx : x = v
    · simp [rankIn, hx]
    · have : v ∈ xs := by
        rcases List.mem_cons.mp h with h | h
        · exact absurd h.symm hx
        · exact h
      simp only [rankIn, hx, if_neg, List.length_cons]
      exact Nat.succ_lt_succ (ih this)

theorem rankIn_append_of_mem {l : List String} {v : String} (l2 : List String)
    (h : v ∈ l) : rankIn (l ++ l2) v = rankIn l v := by
  induction l with
  | nil => cases h
  | cons x xs ih =>
    by_cases hx : x = v
    · simp [rankIn, hx]
    · have : v ∈ xs := by
        rcases List.mem_cons.mp h with h | h
        · exact absurd h.symm hx
        · exact h
      simp [rankIn, hx, ih this]

theorem rankIn_append_of_not_mem {l : List String} {v : String} (l2 : List String)
    (h : v ∉ l) : rankIn (l ++ l2) v = l.length + rankIn l2 v := by
  induction l with
  | nil => simp
  | cons x xs ih =>
    have hx : ¬ x = v := fun he => h (by rw [he]; exact List.mem_cons_self _ _)
    have hxs : v ∉ xs := fun hm => h (List.mem_cons_of_mem _ hm)
    rw [List.cons_append]
    show (if x = v then 0 else rankIn (xs ++ l2) v + 1) = (x :: xs).length + rankIn l2 v
    rw [if_neg hx, ih hxs, List.length_cons]
    omega

theorem bfsPush_spec (current : String) (vs : List String) : ∀ (st : BfsState),
    ∃ nw : List String,
      (bfsPush current st vs).visited = st.visited ++ nw ∧
      (bfsPush current st vs).queue = st.queue ++ nw ∧
      nw.Nodup ∧
      (∀ x ∈ nw, x ∈ vs ∧ x ∉ st.visited) ∧
      (∀ k, k ∈ nw → lookupA (bfsPush current st vs).prev k = some (some current)) ∧
      (∀ k, k ∉ nw → lookupA (bfsPush current st vs).prev k = lookupA st.prev k) := by
  induction vs with
  | nil =>
    intro st
    refine ⟨[], by simp [bfsPush], by simp [bfsPush], List.nodup_nil, ?_, ?_, ?_⟩
    · intro x hx; cases hx
    · intro k hk; cases hk
    · intro k _; rfl
  | cons v vs ih =>
    intro st
    by_cases hv : v ∈ st.visited
    · have hstep : bfsPush current st (v :: vs) = bfsPush current st vs := by
        simp [bfsPush, hv]
      rcases ih st with ⟨nw, h1, h2, h3, h4, h5, h6⟩
      exact ⟨nw, hstep ▸ h1, hstep ▸ h2, h3,
        fun x hx => ⟨List.mem_cons_of_mem _ (h4 x hx).1, (h4 x hx).2⟩,
        hstep ▸ h5, hstep ▸ h6⟩
    · have hstep : bfsPush current st (v :: vs) =
          bfsPush current ⟨st.visited ++ [v], st.queue ++ [v], (v, some current) :: st.prev⟩ vs := by
        simp [bfsPush, hv]
      rcases ih ⟨st.visited ++ [v], st.queue ++ [v], (v, some current) :: st.prev⟩ with
        ⟨nw, h1, h2, h3, h4, h5, h6⟩
      have hvnw : v ∉ nw := by
        intro hvnw
        have := (h4 v hvnw).2
        simp at this
      refine ⟨v :: nw, ?_, ?_, ?_, ?_, ?_, ?_⟩
      · rw [hstep, h1]; simp
      · rw [hstep, h2]; simp
      · exact List.nodup_cons.mpr ⟨hvnw, h3⟩
      · intro x hx
        rcases List.mem_cons.mp hx with rfl | hx
        · exact ⟨List.mem_cons_self _ _, hv⟩
        · have hx4 := h4 x hx
          refine ⟨List.mem_cons_of_mem _ hx4.1, fun hmem => hx4.2 (by simp [hmem])⟩
      · intro k hk
        rcases List.mem_cons.mp hk with rfl | hk
        · rw [hstep, h6 k hvnw]
          simp [lookupA]
        · rw [hstep, h5 k hk]
      · intro k hk
        have hknw : k ∉ nw := fun hm => hk (List.mem_cons_of_mem _ hm)
        have hkv : ¬ v = k := fun hm => hk (hm ▸ List.mem_cons_self _ _)
        rw [hstep, h6 k hknw]
        simp [lookupA, hkv]

/-- The invariant of the BFS loop state: the visited log is duplicate-free,
the queue holds visited nodes, every visited node has a predecessor entry,
the source's entry is `null`, and every real predecessor entry points to an
earlier-discovered adjacency-neighbor. -/
structure BfsInv (source : String) (adj : List (String × List String))
    (st : BfsState) : Prop where
  nodup : st.visited.Nodup
  queue_sub : ∀ q ∈ st.queue, q ∈ st.visited
  src_mem : source ∈ st.visited
  prev_dom : ∀ v ∈ st.visited, ∃ o, lookupA st.prev v = some o
  prev_vis : ∀ k o, lookupA st.prev k = some o → k ∈ st.visited
  prev_none : ∀ k, lookupA st.prev k = some none → k = source
  prev_parent : ∀ k p, lookupA st.prev k = some (some p) →
    p ∈ st.visited ∧ rankIn st.visited p < rankIn st.visited k ∧
      ∃ vs, lookupA adj p = some vs ∧ k ∈ vs

theorem bfsInv_init (source : String) (adj : List (String × List String)) :
    BfsInv source adj ⟨[source], [source], [(source, none)]⟩ := by
  constructor
  · simp
  · intro q hq; simpa using hq
  · simp
  · intro v hv
    have : v = source := by simpa using hv
    subst this
    exact ⟨none, by simp [lookupA]⟩
  · intro k o h
    by_cases hk : source = k
    · simp [hk]
    · simp [lookupA, hk] at h
  · intro k h
    by_cases hk : source = k
    · exact hk.symm
    · simp [lookupA, hk] at h
  · intro k pp h
    by_cases hk : source = k
    · rw [← hk] at h
      simp [lookupA] at h
    · simp [lookupA, hk] at h

theorem bfsInv_push {source : String} {adj : List (String × List String)}
    {st : BfsState} (hInv : BfsInv source adj st) {current : String}
    {rest : List String} (hq : st.queue = current :: rest) {vs : List String}
    (hvs : lookupA adj current = some vs) :
    BfsInv source adj (bfsPush current ⟨st.visited, rest, st.prev⟩ vs) := by
  obtain ⟨nw, h1, h2, h3, h4, h5, h6⟩ := bfsPush_spec current vs ⟨st.visited, rest, st.prev⟩
  have hcur : current ∈ st.visited := hInv.queue_sub current (by rw [hq]; exact List.mem_cons_self _ _)
  have hrest : ∀ q ∈ rest, q ∈ st.visited := fun q hqq =>
    hInv.queue_sub q (by rw [hq]; exact List.mem_cons_of_mem _ hqq)
  have hmemnw : ∀ x ∈ st.visited, x ∉ nw := fun x hx hxn => (h4 x hxn).2 hx
  constructor
  · rw [h1]
    exact List.Nodup.append hInv.nodup h3 (fun a ha hanw => (h4 a hanw).2 ha)
  · intro q hqq
    rw [h2] at hqq
    rw [h1]
    rcases List.mem_append.mp hqq with hqq | hqq
    · exact List.mem_append_left _ (hrest q hqq)
    · exact List.mem_append_right _ hqq
  · rw [h1]
    exact List.mem_append_left _ hInv.src_mem
  · intro v hv
    rw [h1] at hv
    rcases List.mem_append.mp hv with hv | hv
    · obtain ⟨o, ho⟩ := hInv.prev_dom v hv
      exact ⟨o, by rw [h6 v (hmemnw v hv), ho]⟩
    · exact ⟨some current, h5 v hv⟩
  · intro k o h
    rw [h1]
    by_cases hk : k ∈ nw
    · exact List.mem_append_right _ hk
    · rw [h6 k hk] at h
      exact List.mem_append_left _ (hInv.prev_vis k o h)
  · intro k h
    by_cases hk : k ∈ nw
    · rw [h5 k hk] at h
      cases h
    · rw [h6 k hk] at h
      exact hInv.prev_none k h
  · intro k pp h
    by_cases hk : k ∈ nw
    · rw [h5 k hk] at h
      injection h with h
      injection h with h
      subst h
      rw [h1]
      refine ⟨List.mem_append_left _ hcur, ?_, vs, hvs, (h4 k hk).1⟩
      rw [rankIn_append_of_mem nw hcur, rankIn_append_of_not_mem nw (h4 k hk).2]
      show rankIn st.visited current < st.visited.length + rankIn nw k
      have := rankIn_lt_length hcur
      omega
    · rw [h6 k hk] at h
      obtain ⟨hpmem, hrlt, hadjh⟩ := hInv.prev_parent k pp h
      have hkmem : k ∈ st.visited := hInv.prev_vis k _ h
      rw [h1]
      refine ⟨List.mem_append_left _ hpmem, ?_, hadjh⟩
      rw [rankIn_append_of_mem nw hpmem, rankIn_append_of_mem nw hkmem]
      exact hrlt

theorem bfsLoop_inv (source : String) (adj : List (String × List String))
    (target : String) :
    ∀ (fuel : Nat) (st st' : BfsState), BfsInv source adj st →
      bfsLoop adj target fuel st = .ok st' → BfsInv source adj st' := by
  intro fuel
  induction fuel with
  | zero => intro st st' _ h; cases h
  | succ fuel ih =>
    intro st st' hInv h
    cases hq : st.queue with
    | nil =>
      simp only [bfsLoop, hq] at h
      injection h with h
      subst h
      exact hInv
    | cons current rest =>
      simp only [bfsLoop, hq] at h
      by_cases htgt : current = target
      · rw [if_pos htgt] at h
        injection h with h
        subst h
        exact hInv
      · rw [if_neg htgt] at h
        cases hvs : lookupA adj current with
        | none => rw [hvs] at h; cases h
        | some vs =>
          rw [hvs] at h
          exact ih _ _ (bfsInv_push hInv hq hvs) h

theorem bfsLoop_total (adj : List (String × List String)) (target : String)
    (hcl : keyClosed adj) :
    ∀ (fuel : Nat) (st : BfsState), st.visited.Nodup →
      (∀ q ∈ st.queue, q ∈ st.visited) →
      (∀ v ∈ st.visited, v ∈ keysA adj) →
      (keysA adj).length - st.visited.length + st.queue.length < fuel →
      ∃ st', bfsLoop adj target fuel st = .ok st' ∧
        st'.visited.Nodup ∧ ∀ v ∈ st'.visited, v ∈ keysA adj := by
  intro fuel
  induction fuel with
  | zero => intro st _ _ _ hm; exact absurd hm (Nat.not_lt_zero _)
  | succ fuel ih =>
    intro st hnd hq hsub hm
    cases hqe : st.queue with
    | nil => exact ⟨st, by simp [bfsLoop, hqe], hnd, hsub⟩
    | cons current rest =>
      by_cases htgt : current = target
      · exact ⟨st, by simp [bfsLoop, hqe, htgt], hnd, hsub⟩
      · have hcmem : current ∈ keysA adj :=
          hsub current (hq current (by rw [hqe]; exact List.mem_cons_self _ _))
        obtain ⟨vs, hvs⟩ := lookupA_mem_keys hcmem
        obtain ⟨nw, h1, h2, h3, h4, h5, h6⟩ :=
          bfsPush_spec current vs ⟨st.visited, rest, st.prev⟩
        dsimp only at h1 h2 h4
        have hnd' : (st.visited ++ nw).Nodup :=
          List.Nodup.append hnd h3 (fun a ha hanw => (h4 a hanw).2 ha)
        have hsub' : ∀ v ∈ st.visited ++ nw, v ∈ keysA adj := by
          intro v hv
          rcases List.mem_append.mp hv with hv | hv
          · exact hsub v hv
          · exact hcl current vs hvs v (h4 v hv).1
        have hlen : (st.visited ++ nw).length ≤ (keysA adj).length :=
          (List.subperm_of_subset hnd' hsub').length_le
        have hq' : ∀ q ∈ rest ++ nw, q ∈ st.visited ++ nw := by
          intro q hqq
          rcases List.mem_append.mp hqq with hqq | hqq
          · exact List.mem_append_left _
              (hq q (by rw [hqe]; exact List.mem_cons_of_mem _ hqq))
          · exact List.mem_append_right _ hqq
        have hql : st.queue.length = rest.length + 1 := by rw [hqe]; rfl
        have hm' : (keysA adj).length - (st.visited ++ nw).length +
            (rest ++ nw).length < fuel := by
          simp only [List.length_append] at hlen ⊢
          omega
        obtain ⟨st', hst', hst'nd, hst'sub⟩ :=
          ih (bfsPush current ⟨st.visited, rest, st.prev⟩ vs)
            (by rw [h1]; exact hnd') (by rw [h1, h2]; exact hq')
            (by rw [h1]; exact hsub') (by rw [h1, h2]; exact hm')
        refine ⟨st', ?_, hst'nd, hst'sub⟩
        simp only [bfsLoop, hqe]
        rw [if_neg htgt, hvs]
        exact hst'

/-- C10: on a well-formed graph, starting the BFS loop from a node of the
graph, the traversal terminates with an `ok` state — no adjacency lookup
hits a missing key and the fuel `bfsFuel` is never exhausted — and the
enqueue log (`visited`, which records exactly the enqueued nodes) has no
duplicates: every node is enqueued at most once. -/
theorem C10_traversal_safe (g : Graph) (s t : String) (hwf : wfGraph g)
    (hs : s ∈ nodeIds g) :
    ∃ adj st', buildAdj g = some adj ∧
      bfsLoop adj t (bfsFuel g) ⟨[s], [s], [(s, none)]⟩ = .ok st' ∧
      st'.visited.Nodup := by
  obtain ⟨adj, hadj⟩ := buildAdj_isSome hwf
  have hk := buildAdj_keys hadj
  have hcl := buildAdj_keyClosed hwf hadj
  have hKlen : (keysA adj).length = g.nodes.length := by
    rw [hk]
    simp [nodeIds]
  have hpos : 1 ≤ g.nodes.length := by
    have : nodeIds g ≠ [] := List.ne_nil_of_mem hs
    have := List.length_pos.mpr this
    simpa [nodeIds] using this
  obtain ⟨st', h1, h2, _⟩ := bfsLoop_total adj t hcl (bfsFuel g)
    ⟨[s], [s], [(s, none)]⟩ (by simp) (by intro q hq; simpa using hq)
    (by
      intro v hv
      have : v = s := by simpa using hv
      subst this
      rw [hk]
      exact hs)
    (by
      unfold bfsFuel
      simp only [List.length_cons, List.length_nil]
      omega)
  exact ⟨adj, st', hadj, h1, h2⟩

/-- C10 witness: the traversal-safety theorem on the concrete path graph. -/
theorem C10_traversal_safe_witness :
    ∃ adj st', buildAdj pathGraph3 = some adj ∧
      bfsLoop adj "3" (bfsFuel pathGraph3) ⟨["1"], ["1"], [("1", none)]⟩ = .ok st' ∧
      st'.visited.Nodup :=
  C10_traversal_safe pathGraph3 "1" "3" (by decide) (by decide)

theorem head?_append_left {α : Type} (l l2 : List α) (h : l ≠ []) :
    (l ++ l2).head? = l.head? := by
  cases l with
  | nil => exact absurd rfl h
  | cons x xs => rfl

theorem getLast?_concat_eq {α : Type} (l : List α) (v : α) :
    (l ++ [v]).getLast? = some v := by
  rw [← List.concat_eq_append]
  simp [List.getLast?_concat]

/-- Correctness of the predecessor walk: from any visited node, with fuel
exceeding its discovery rank, the walk produces a source-first path whose
ranks strictly increase (hence no repeated nodes) and whose consecutive
pairs are adjacency neighbors. -/
theorem walkPrev_ok {source : String} {adj : List (String × List String)}
    {st : BfsState} (hInv : BfsInv source adj st) :
    ∀ (fuel : Nat) (v : String), v ∈ st.visited → rankIn st.visited v < fuel →
      ∃ path, walkPrev st.prev fuel v = some path ∧
        path ≠ [] ∧ path.head? = some source ∧ path.getLast? = some v ∧
        path.Chain' (fun a b => ∃ vs, lookupA adj a = some vs ∧ b ∈ vs) ∧
        path.Pairwise (fun a b => rankIn st.visited a < rankIn st.visited b) ∧
        (∀ x ∈ path, rankIn st.visited x ≤ rankIn st.visited v) := by
  intro fuel
  induction fuel with
  | zero => intro v _ hr; exact absurd hr (Nat.not_lt_zero _)
  | succ fuel ih =>
    intro v hv hr
    obtain ⟨o, ho⟩ := hInv.prev_dom v hv
    cases o with
    | none =>
      have hvs : v = source := hInv.prev_none v ho
      refine ⟨[v], ?_, by simp, by simp [hvs], by simp, by simp, by simp, ?_⟩
      · simp [walkPrev, ho]
      · intro x hx
        have : x = v := by simpa using hx
        subst this
        exact Nat.le_refl _
    | some p =>
      obtain ⟨hp, hrlt, hadjh⟩ := hInv.prev_parent v p ho
      have hrp : rankIn st.visited p < fuel := by omega
      obtain ⟨path, hw, hne, hhead, hlast, hchain, hpair, hbound⟩ := ih p hp hrp
      refine ⟨path ++ [v], ?_, by simp, ?_, getLast?_concat_eq path v, ?_, ?_, ?_⟩
      · simp [walkPrev, ho, hw]
      · rw [head?_append_left path [v] hne]
        exact hhead
      · rw [List.chain'_append]
        refine ⟨hchain, List.chain'_singleton v, ?_⟩
        intro x hx y hy
        have hxp : p = x := by
          rw [hlast] at hx
          simpa using hx
        have hyv : v = y := by simpa using hy
        subst hxp
        subst hyv
        exact hadjh
      · rw [List.pairwise_append]
        refine ⟨hpair, List.pairwise_singleton _ _, ?_⟩
        intro a ha b hb
        have hbv : b = v := by simpa using hb
        subst hbv
        have := hbound a ha
        omega
      · intro x hx
        rcases List.mem_append.mp hx with hx | hx
        · have := hbound x hx
          omega
        · have : x = v := by simpa using hx
          subst this
          exact Nat.le_refl _

/-- C3: whenever the shortest-path search returns a path, that path starts
at the source, ends at the target, repeats no node, and every consecutive
pair is joined by an active edge of the graph. -/
theorem C3_path_valid (g : Graph) (s t : String) (hs : s ∈ nodeIds g)
    (ht : t ∈ nodeIds g) (p : List String)
    (h : runBFS g s t = .ok (.found p)) :
    p.head? = some s ∧ p.getLast? = some t ∧ p.Nodup ∧
      p.Chain' (fun a b => activeBetween g.edges a b = true) := by
  unfold runBFS at h
  cases hb : buildAdj g with
  | none => rw [hb] at h; cases h
  | some adj =>
    rw [hb] at h
    dsimp only at h
    cases hloop : bfsLoop adj t (bfsFuel g) ⟨[s], [s], [(s, none)]⟩ with
    | crash => rw [hloop] at h; cases h
    | fuelOut => rw [hloop] at h; cases h
    | ok st =>
      rw [hloop] at h
      dsimp only at h
      by_cases htv : t ∈ st.visited
      · rw [if_pos htv] at h
        cases hwalk : walkPrev st.prev st.visited.length t with
        | none => rw [hwalk] at h; cases h
        | some path =>
          rw [hwalk] at h
          injection h with h
          injection h with h
          subst h
          have hInv := bfsLoop_inv s adj t (bfsFuel g) _ st (bfsInv_init s adj) hloop
          have hr : rankIn st.visited t < st.visited.length := rankIn_lt_length htv
          obtain ⟨path2, hw2, _, hhead, hlast, hchain, hpair, _⟩ :=
            walkPrev_ok hInv st.visited.length t htv hr
          rw [hwalk] at hw2
          injection hw2 with hw2
          subst hw2
          refine ⟨hhead, hlast, ?_, ?_⟩
          · exact List.Pairwise.imp
              (fun hlt heq => absurd (heq ▸ hlt) (lt_irrefl _)) hpair
          · refine List.Chain'.imp ?_ hchain
            intro a b hab
            obtain ⟨vs, hvs, hmem⟩ := hab
            exact buildAdj_sound hb a vs hvs b hmem
      · rw [if_neg htv] at h
        injection h with h
        cases h

/-- C3 witness: the path-validity theorem applied to the concrete shortest
path 1–2–3 found on the path graph. -/
theorem C3_path_valid_witness :
    (["1", "2", "3"] : List String).head? = some "1" ∧
      (["1", "2", "3"] : List String).getLast? = some "3" ∧
      (["1", "2", "3"] : List String).Nodup ∧
      (["1", "2", "3"] : List String).Chain'
        (fun a b => activeBetween pathGraph3.edges a b = true) :=
  C3_path_valid pathGraph3 "1" "3" (by decide) (by decide) ["1", "2", "3"] (by decide)

/-- The neighbor push of the recovery BFS (page.tsx lines 362-367), acting
on the pair (visited log, queue). -/
def reachPush (st : List String × List String) (vs : List String) :
    List String × List String :=
  vs.foldl (fun pa v => if v ∈ pa.1 then pa else (pa.1 ++ [v], pa.2 ++ [v])) st

/-- The reachability BFS of `recoverNetwork` (page.tsx lines 353-368):
like `runBFS`'s loop but with no target and no predecessor map, returning
the visited set. -/
def reachLoop (adj : List (String × List String)) :
    Nat → List String → List String → Res (List String)
  | 0, _, _ => .fuelOut
  | fuel + 1, visited, queue =>
    match queue with
    | [] => .ok visited
    | current :: rest =>
      match lookupA adj current with
      | none => .crash
      | some vs => reachLoop adj fuel (reachPush (visited, rest) vs).1 (reachPush (visited, rest) vs).2

/-- Hub selection (page.tsx line 350):
`graph.nodes.find((node) => node.type === "hub")?.id || graph.nodes[0].id`.
`none` models the `undefined` property access on an empty node list; the
`||` falls through to the first node when the found hub's id is the empty
string, which is falsy in JS. -/
def sourceNodeId (g : Graph) : Option String :=
  match (g.nodes.find? (fun n => n.type == "hub")).map (fun n => n.id) with
  | some i => if i = "" then (g.nodes.head?).map (fun n => n.id) else some i
  | none => (g.nodes.head?).map (fun n => n.id)

/-- The nearest-connected-node scan (page.tsx lines 390-403):
`closestNode` starts at `connectedNodes[0]` and `minDistance` at
`Number.MAX_VALUE` (modelled as `none`, smaller than nothing), then every
connected node strictly closer than the current minimum replaces it.  The
float `Math.sqrt` of the source is replaced by the exact squared integer
distance; `sqrt` is strictly monotone, so the comparisons agree. -/
def nearestConnected (connected : List Node) (c0 : Node) (d : Node) : Node :=
  (connected.foldl (fun best cand =>
      match best.2 with
      | none => (cand, some ((cand.x - d.x) * (cand.x - d.x) + (cand.y - d.y) * (cand.y - d.y)))
      | some m =>
        if (cand.x - d.x) * (cand.x - d.x) + (cand.y - d.y) * (cand.y - d.y) < m then
          (cand, some ((cand.x - d.x) * (cand.x - d.x) + (cand.y - d.y) * (cand.y - d.y)))
        else best)
    ((c0, none) : Node × Option Int)).1

/-- The outputs of one `recoverNetwork` call (page.tsx lines 327-419),
mirroring its locals: the selected hub, the BFS-visited set, the
disconnected node ids, and `newRecoveryEdges`. -/
structure RecoveryOut where
  hub : String
  visitedR : List String
  disconnectedIds : List String
  recoveryEdges : List Edge
deriving DecidableEq, Repr

/-- `recoverNetwork` (page.tsx lines 327-419): adjacency build, hub
selection, reachability BFS, then one synthetic recovery edge per
disconnected node, each aimed at its nearest node of the reachable set.
`crash` covers the `undefined` failures (empty node list at line 350,
`connectedNodes[0]` when the reachable set is empty, missing adjacency
keys); the `isBridge` field of a recovery edge is JS-`undefined`, i.e.
false. -/
def recoverNetwork (g : Graph) : Res RecoveryOut :=
  match buildAdj g with
  | none => .crash
  | some adj =>
    match sourceNodeId g with
    | none => .crash
    | some hub =>
      match reachLoop adj (g.nodes.length + 1) [hub] [hub] with
      | .crash => .crash
      | .fuelOut => .fuelOut
      | .ok visitedR =>
        let disconnectedNodes := g.nodes.filter (fun n => !(decide (n.id ∈ visitedR)))
        if disconnectedNodes = [] then .ok ⟨hub, visitedR, [], []⟩
        else
          match g.nodes.filter (fun n => decide (n.id ∈ visitedR)) with
          | [] => .crash
          | c0 :: rest =>
            .ok ⟨hub, visitedR, disconnectedNodes.map (fun n => n.id),
              disconnectedNodes.map (fun d =>
                ⟨d.id, (nearestConnected (c0 :: rest) c0 d).id, false, true, true⟩)⟩

/-- `a` reaches `b` through edges of `edges` that are active: the
transitive closure of the active-link relation. -/
def Reaches (edges : List Edge) (a b : String) : Prop :=
  Relation.ReflTransGen (fun x y => activeBetween edges x y = true) a b

theorem Reaches_append {edges rest : List Edge} {a b : String}
    (h : Reaches edges a b) : Reaches (edges ++ rest) a b :=
  Relation.ReflTransGen.mono (fun _ _ hxy => activeBetween_append_left hxy) h

theorem reachPush_spec (vs : List String) : ∀ (visited queue : List String),
    ∃ nw : List String,
      (reachPush (visited, queue) vs).1 = visited ++ nw ∧
      (reachPush (visited, queue) vs).2 = queue ++ nw ∧
      nw.Nodup ∧ (∀ x ∈ nw, x ∈ vs ∧ x ∉ visited) := by
  induction vs with
  | nil =>
    intro visited queue
    refine ⟨[], by simp [reachPush], by simp [reachPush], List.nodup_nil, ?_⟩
    intro x hx
    cases hx
  | cons v vs ih =>
    intro visited queue
    by_cases hv : v ∈ visited
    · have hstep : reachPush (visited, queue) (v :: vs) = reachPush (visited, queue) vs := by
        simp [reachPush, hv]
      rcases ih visited queue with ⟨nw, h1, h2, h3, h4⟩
      exact ⟨nw, hstep ▸ h1, hstep ▸ h2, h3,
        fun x hx => ⟨List.mem_cons_of_mem _ (h4 x hx).1, (h4 x hx).2⟩⟩
    · have hstep : reachPush (visited, queue) (v :: vs) =
          reachPush (visited ++ [v], queue ++ [v]) vs := by
        simp [reachPush, hv]
      rcases ih (visited ++ [v]) (queue ++ [v]) with ⟨nw, h1, h2, h3, h4⟩
      have hvnw : v ∉ nw := by
        intro hvnw
        have := (h4 v hvnw).2
        simp at this
      refine ⟨v :: nw, ?_, ?_, List.nodup_cons.mpr ⟨hvnw, h3⟩, ?_⟩
      · rw [hstep, h1]; simp
      · rw [hstep, h2]; simp
      · intro x hx
        rcases List.mem_cons.mp hx with rfl | hx
        · exact ⟨List.mem_cons_self _ _, hv⟩
        · have hx4 := h4 x hx
          exact ⟨List.mem_cons_of_mem _ hx4.1, fun hmem => hx4.2 (by simp [hmem])⟩

/-- Soundness plus termination of the recovery reachability BFS, for any
property `P` preserved along adjacency (instantiated with reachability
from the hub): the loop returns a visited set of `P`-nodes containing the
initial one. -/
theorem reachLoop_ok (adj : List (String × List String)) (hcl : keyClosed adj)
    (P : String → Prop)
    (hstep : ∀ c v, P c → (∃ vs, lookupA adj c = some vs ∧ v ∈ vs) → P v) :
    ∀ (fuel : Nat) (visited queue : List String), visited.Nodup →
      (∀ q ∈ queue, q ∈ visited) → (∀ v ∈ visited, v ∈ keysA adj) →
      (∀ v ∈ visited, P v) →
      (keysA adj).length - visited.length + queue.length < fuel →
      ∃ R, reachLoop adj fuel visited queue = .ok R ∧
        (∀ v ∈ R, P v) ∧ ∀ v ∈ visited, v ∈ R := by
  intro fuel
  induction fuel with
  | zero => intro visited queue _ _ _ _ hm; exact absurd hm (Nat.not_lt_zero _)
  | succ fuel ih =>
    intro visited queue hnd hq hsub hP hm
    cases hqe : queue with
    | nil => exact ⟨visited, by simp [reachLoop], hP, fun v hv => hv⟩
    | cons current rest =>
      have hcmem : current ∈ keysA adj :=
        hsub current (hq current (by rw [hqe]; exact List.mem_cons_self _ _))
      obtain ⟨vs, hvs⟩ := lookupA_mem_keys hcmem
      obtain ⟨nw, h1, h2, h3, h4⟩ := reachPush_spec vs visited rest
      have hPc : P current := hP current (hq current (by rw [hqe]; exact List.mem_cons_self _ _))
      have hnd' : (visited ++ nw).Nodup :=
        List.Nodup.append hnd h3 (fun a ha hanw => (h4 a hanw).2 ha)
      have hsub' : ∀ v ∈ visited ++ nw, v ∈ keysA adj := by
        intro v hv
        rcases List.mem_append.mp hv with hv | hv
        · exact hsub v hv
        · exact hcl current vs hvs v (h4 v hv).1
      have hP' : ∀ v ∈ visited ++ nw, P v := by
        intro v hv
        rcases List.mem_append.mp hv with hv | hv
        · exact hP v hv
        · exact hstep current v hPc ⟨vs, hvs, (h4 v hv).1⟩
      have hq' : ∀ q ∈ rest ++ nw, q ∈ visited ++ nw := by
        intro q hqq
        rcases List.mem_append.mp hqq with hqq | hqq
        · exact List.mem_append_left _
            (hq q (by rw [hqe]; exact List.mem_cons_of_mem _ hqq))
        · exact List.mem_append_right _ hqq
      have hlen : (visited ++ nw).length ≤ (keysA adj).length :=
        (List.subperm_of_subset hnd' hsub').length_le
      have hql : queue.length = rest.length + 1 := by rw [hqe]; rfl
      have hm' : (keysA adj).length - (visited ++ nw).length + (rest ++ nw).length < fuel := by
        simp only [List.length_append] at hlen ⊢
        omega
      obtain ⟨R, hR, hRP, hRsub⟩ := ih (reachPush (visited, rest) vs).1
        (reachPush (visited, rest) vs).2 (by rw [h1]; exact hnd')
        (by rw [h1, h2]; exact hq') (by rw [h1]; exact hsub')
        (by rw [h1]; exact hP') (by rw [h1, h2]; exact hm')
      refine ⟨R, ?_, hRP, ?_⟩
      · simp only [reachLoop, hqe]
        rw [hvs]
        exact hR
      · intro v hv
        exact hRsub v (by rw [h1]; exact List.mem_append_left _ hv)

theorem sourceNodeId_isSome {g : Graph} (hne : g.nodes ≠ []) :
    ∃ h, sourceNodeId g = some h ∧ h ∈ nodeIds g := by
  obtain ⟨n0, l, hl⟩ := List.exists_cons_of_ne_nil hne
  have hhead : g.nodes.head? = some n0 := by rw [hl]; rfl
  have hn0 : n0 ∈ g.nodes := by rw [hl]; exact List.mem_cons_self _ _
  unfold sourceNodeId
  cases hf : g.nodes.find? (fun n => n.type == "hub") with
  | none =>
    refine ⟨n0.id, ?_, List.mem_map_of_mem _ hn0⟩
    rw [hhead]
    rfl
  | some n =>
    have hnmem : n ∈ g.nodes := List.mem_of_find?_eq_some hf
    by_cases hid : n.id = ""
    · refine ⟨n0.id, ?_, List.mem_map_of_mem _ hn0⟩
      simp only [Option.map_some']
      rw [if_pos hid, hhead]
      rfl
    · refine ⟨n.id, ?_, List.mem_map_of_mem _ hnmem⟩
      simp only [Option.map_some']
      rw [if_neg hid]

theorem nearestConnected_mem (connected : List Node) (c0 : Node) (d : Node)
    (h : c0 ∈ connected) : nearestConnected connected c0 d ∈ connected := by
  have aux : ∀ (l : List Node) (b : Node × Option Int), b.1 ∈ connected →
      (∀ x ∈ l, x ∈ connected) →
      (l.foldl (fun best cand =>
        match best.2 with
        | none => (cand, some ((cand.x - d.x) * (cand.x - d.x) + (cand.y - d.y) * (cand.y - d.y)))
        | some m =>
          if (cand.x - d.x) * (cand.x - d.x) + (cand.y - d.y) * (cand.y - d.y) < m then
            (cand, some ((cand.x - d.x) * (cand.x - d.x) + (cand.y - d.y) * (cand.y - d.y)))
          else best) b).1 ∈ connected := by
    intro l
    induction l with
    | nil => intro b hb _; exact hb
    | cons x xs ih =>
      intro b hb hl
      simp only [List.foldl_cons]
      apply ih
      · cases hb2 : b.2 with
        | none => exact hl x (List.mem_cons_self _ _)
        | some m =>
          by_cases hlt : (x.x - d.x) * (x.x - d.x) + (x.y - d.y) * (x.y - d.y) < m
          · simp only [hb2, if_pos hlt]
            exact hl x (List.mem_cons_self _ _)
          · simp only [hb2, if_neg hlt]
            exact hb
      · intro y hy
        exact hl y (List.mem_cons_of_mem _ hy)
  exact aux connected (c0, none) h (fun x hx => hx)

/-- C4: on a well-formed non-empty graph, one recovery pass succeeds; every
returned recovery edge is an active synthetic edge from a node outside the
hub-reachable set R directly into R (never into another disconnected
node); every member of R is reachable from the hub over the original
active edges; and after adding the recovery edges every node of the graph
is reachable from the hub. -/
theorem C4_recovery (g : Graph) (hwf : wfGraph g) (hne : g.nodes ≠ []) :
    ∃ out, recoverNetwork g = .ok out ∧
      (∀ e ∈ out.recoveryEdges,
        e.source ∉ out.visitedR ∧ e.target ∈ out.visitedR ∧
          e.isActive = true ∧ e.isRecovery = true) ∧
      (∀ v ∈ out.visitedR, Reaches g.edges out.hub v) ∧
      (∀ n ∈ g.nodes, Reaches (g.edges ++ out.recoveryEdges) out.hub n.id) := by
  obtain ⟨adj, hadj⟩ := buildAdj_isSome hwf
  obtain ⟨hub, hhub, hhubmem⟩ := sourceNodeId_isSome hne
  have hcl := buildAdj_keyClosed hwf hadj
  have hkeys := buildAdj_keys hadj
  have hsound := buildAdj_sound hadj
  have hstep : ∀ c v, Reaches g.edges hub c →
      (∃ vs, lookupA adj c = some vs ∧ v ∈ vs) → Reaches g.edges hub v := by
    intro c v hc hex
    obtain ⟨vs, hvs, hv⟩ := hex
    exact Relation.ReflTransGen.tail hc (hsound c vs hvs v hv)
  have hK : (keysA adj).length = g.nodes.length := by
    rw [hkeys]
    simp [nodeIds]
  obtain ⟨R, hR, hRP, hRsub⟩ := reachLoop_ok adj hcl (Reaches g.edges hub) hstep
    (g.nodes.length + 1) [hub] [hub] (by simp) (by intro q hq; simpa using hq)
    (by
      intro v hv
      have : v = hub := by simpa using hv
      subst this
      rw [hkeys]
      exact hhubmem)
    (by
      intro v hv
      have : v = hub := by simpa using hv
      subst this
      exact Relation.ReflTransGen.refl)
    (by
      rw [hK]
      have hpos : 1 ≤ g.nodes.length := by
        cases hgn : g.nodes with
        | nil => exact absurd hgn hne
        | cons a l => simp
      simp only [List.length_cons, List.length_nil]
      omega)
  have hhubR : hub ∈ R := hRsub hub (by simp)
  unfold recoverNetwork
  rw [hadj]
  dsimp only
  rw [hhub]
  dsimp only
  rw [hR]
  dsimp only
  by_cases hdis : g.nodes.filter (fun n => !(decide (n.id ∈ R))) = []
  · rw [if_pos hdis]
    refine ⟨⟨hub, R, [], []⟩, rfl, ?_, ?_, ?_⟩
    · intro e he
      cases he
    · intro v hv
      exact hRP v hv
    · intro n hn
      have hmem : n.id ∈ R := by
        by_contra hnm
        have hn2 : n ∈ g.nodes.filter (fun n => !(decide (n.id ∈ R))) := by
          rw [List.mem_filter]
          exact ⟨hn, by simp [hnm]⟩
        rw [hdis] at hn2
        cases hn2
      exact Reaches_append (hRP n.id hmem)
  · rw [if_neg hdis]
    obtain ⟨nh, hnhmem, hnhid⟩ : ∃ nh ∈ g.nodes, nh.id = hub := by
      rcases List.mem_map.mp hhubmem with ⟨nh, h1, h2⟩
      exact ⟨nh, h1, h2⟩
    have hnhfil : nh ∈ g.nodes.filter (fun n => decide (n.id ∈ R)) := by
      rw [List.mem_filter]
      exact ⟨hnhmem, by simp [hnhid, hhubR]⟩
    cases hcfil : g.nodes.filter (fun n => decide (n.id ∈ R)) with
    | nil =>
      rw [hcfil] at hnhfil
      cases hnhfil
    | cons c0 rest =>
      dsimp only
      refine ⟨_, rfl, ?_, ?_, ?_⟩
      · intro e he
        dsimp only at he
        rcases List.mem_map.mp he with ⟨dnode, hdmem, hde⟩
        subst hde
        have hdfil := List.mem_filter.mp hdmem
        refine ⟨?_, ?_, rfl, rfl⟩
        · have hd2 := hdfil.2
          simpa using hd2
        · have hnmem := nearestConnected_mem (c0 :: rest) c0 dnode (List.mem_cons_self _ _)
          have hnmem2 : nearestConnected (c0 :: rest) c0 dnode ∈
              g.nodes.filter (fun n => decide (n.id ∈ R)) := by
            rw [hcfil]
            exact hnmem
          have hfil2 := (List.mem_filter.mp hnmem2).2
          simpa using hfil2
      · intro v hv
        exact hRP v hv
      · intro n hn
        dsimp only
        by_cases hmem : n.id ∈ R
        · exact Reaches_append (hRP n.id hmem)
        · have hnd : n ∈ g.nodes.filter (fun n => !(decide (n.id ∈ R))) := by
            rw [List.mem_filter]
            exact ⟨hn, by simp [hmem]⟩
          have hemem : (⟨n.id, (nearestConnected (c0 :: rest) c0 n).id, false, true, true⟩ : Edge) ∈
              (g.nodes.filter (fun n => !(decide (n.id ∈ R)))).map (fun d =>
                (⟨d.id, (nearestConnected (c0 :: rest) c0 d).id, false, true, true⟩ : Edge)) :=
            List.mem_map_of_mem _ hnd
          have hrmem : (nearestConnected (c0 :: rest) c0 n).id ∈ R := by
            have hx := nearestConnected_mem (c0 :: rest) c0 n (List.mem_cons_self _ _)
            have hx1 : nearestConnected (c0 :: rest) c0 n ∈
                g.nodes.filter (fun n => decide (n.id ∈ R)) := by
              rw [hcfil]
              exact hx
            have hx2 := (List.mem_filter.mp hx1).2
            simpa using hx2
          refine Relation.ReflTransGen.tail (Reaches_append (hRP _ hrmem)) ?_
          apply activeBetween_of_edge (List.mem_append_right _ hemem) rfl
          exact Or.inr ⟨rfl, rfl⟩

/-- A hub and one isolated node: the smallest recovery scenario. -/
def recoveryGraph : Graph :=
  { nodes := [⟨"H", "Hub", 0, 0, "hub", false⟩, ⟨"A", "Alpha", 5, 0, "city", false⟩],
    edges := [] }

/-- C4 witness: the recovery theorem applied to the hub-plus-isolated-node
graph. -/
theorem C4_recovery_witness :
    ∃ out, recoverNetwork recoveryGraph = .ok out ∧
      (∀ e ∈ out.recoveryEdges,
        e.source ∉ out.visitedR ∧ e.target ∈ out.visitedR ∧
          e.isActive = true ∧ e.isRecovery = true) ∧
      (∀ v ∈ out.visitedR, Reaches recoveryGraph.edges out.hub v) ∧
      (∀ n ∈ recoveryGraph.nodes,
        Reaches (recoveryGraph.edges ++ out.recoveryEdges) out.hub n.id) :=
  C4_recovery recoveryGraph (by decide) (by decide)

/-- C7 counterexample: on the empty graph the recovery planner fails
uncontrolledly (the JS code reads `graph.nodes[0].id` of `undefined`); no
typed `EmptyGraph` error exists anywhere in the code. -/
theorem C7_counterexample : recoverNetwork ⟨[], []⟩ = .crash := by
  decide

theorem find?_append_first {α : Type} (p : α → Bool) (l1 l2 : List α) (n : α)
    (h1 : ∀ m ∈ l1, p m = false) (hn : p n = true) :
    (l1 ++ n :: l2).find? p = some n := by
  induction l1 with
  | nil => simp [List.find?_cons_of_pos _ hn]
  | cons x xs ih =>
    rw [List.cons_append, List.find?_cons_of_neg]
    · exact ih (fun m hm => h1 m (List.mem_cons_of_mem _ hm))
    · simp [h1 x (List.mem_cons_self _ _)]

/-- C7 (amended): the planner's hub is the first node whose kind is `hub`,
provided its id is nonempty (the `||` fallback treats an empty id as
falsy); with no hub-kind node it is the first node of the list; and on a
graph with zero nodes `recoverNetwork` fails uncontrolledly instead of
returning a typed `EmptyGraph` error. -/
theorem C7_hub_selection :
    (∀ (g : Graph) (l1 : List Node) (n : Node) (l2 : List Node),
      g.nodes = l1 ++ n :: l2 → n.type = "hub" → (∀ m ∈ l1, m.type ≠ "hub") →
      n.id ≠ "" → sourceNodeId g = some n.id) ∧
    (∀ (g : Graph) (n0 : Node) (l : List Node),
      (∀ m ∈ g.nodes, m.type ≠ "hub") → g.nodes = n0 :: l →
      sourceNodeId g = some n0.id) ∧
    (∀ g : Graph, g.nodes = [] → recoverNetwork g = .crash) := by
  refine ⟨?_, ?_, ?_⟩
  · intro g l1 n l2 hg hn h1 hid
    unfold sourceNodeId
    rw [hg, find?_append_first (fun m => m.type == "hub") l1 l2 n
      (fun m hm => by simp [h1 m hm]) (by simp [hn])]
    simp only [Option.map_some']
    rw [if_neg hid]
  · intro g n0 l hno hg
    unfold sourceNodeId
    have hf : g.nodes.find? (fun m => m.type == "hub") = none := by
      rw [List.find?_eq_none]
      intro x hx
      simp [hno x hx]
    rw [hf, hg]
    rfl
  · intro g hg
    unfold recoverNetwork
    cases hb : buildAdj g with
    | none => rfl
    | some adj =>
      have hsrc : sourceNodeId g = none := by
        unfold sourceNodeId
        rw [hg]
        rfl
      rw [hsrc]

/-- C7 witness: the amended theorem's first-hub branch on the concrete
recovery graph, whose first node is the hub H. -/
theorem C7_hub_selection_witness : sourceNodeId recoveryGraph = some "H" :=
  C7_hub_selection.1 recoveryGraph [] ⟨"H", "Hub", 0, 0, "hub", false⟩
    [⟨"A", "Alpha", 5, 0, "city", false⟩] rfl rfl
    (fun m hm => absurd hm (List.not_mem_nil m)) (by decide)
